import Mathlib

/-!
Shallow embedding of the user-order history aggregator in
`src/rust/aggregator/src/data/user_history.rs`.

Database values of SQL type `NUMERIC` (Rust `BigDecimal`) are modelled as `Rat`
(exact arbitrary-precision values); timestamps (`DateTime<Utc>`) as `Int`
(microseconds since epoch); addresses and other opaque text columns as
`String`; small integer columns (`side`, `restriction`, ...) as `Int`.
`txn_version` and `event_idx` are modelled as `Nat`, per the domain contract
that they are unsigned chain counters (the Rust code converts them with
`to_bigint`, erroring on non-integers; on the `Nat` domain that conversion is
total).

A database table owned by the aggregator is modelled as an association list in
storage order: `INSERT` appends (erroring on a primary-key collision),
`UPDATE ... WHERE key` rewrites every matching entry in place, and a query
without `ORDER BY` returns rows in storage order.  The whole tick runs in one
transaction, modelled by `Except`: an error result means the transaction is
aborted and no state change is visible.
-/

namespace Econia

/-- Number of bits to shift when encoding transaction version
(`SHIFT_TXN_VERSION` in the source). -/
def SHIFT_TXN_VERSION : Nat := 64

/-- `order_status` enum of the `aggregator.user_history` table. -/
inductive OrderStatus where
  | Open
  | Closed
  | Cancelled
deriving DecidableEq

/-- `order_type` enum of the `aggregator.user_history` table. -/
inductive OrderType where
  | Limit
  | Market
  | Swap
deriving DecidableEq

/-- Row of `fill_events` (the columns the aggregator reads). -/
structure FillEvent where
  txn_version : Nat
  event_idx : Nat
  market_id : Rat
  maker_order_id : Rat
  taker_order_id : Rat
  size : Rat
  maker_address : String
  emit_address : String
  time : Int
deriving DecidableEq

/-- Row of `change_order_size_events`. -/
structure ChangeEvent where
  txn_version : Nat
  event_idx : Nat
  market_id : Rat
  order_id : Rat
  new_size : Rat
  time : Int
deriving DecidableEq

/-- Row of `cancel_order_events`. -/
structure CancelEvent where
  txn_version : Nat
  event_idx : Nat
  market_id : Rat
  order_id : Rat
  time : Int
deriving DecidableEq

/-- Row of `place_limit_order_events`. -/
structure PlaceLimitEvent where
  txn_version : Nat
  event_idx : Nat
  market_id : Rat
  order_id : Rat
  user : String
  custodian_id : Rat
  side : Int
  self_match_behavior : Int
  restriction : Int
  price : Rat
  initial_size : Rat
  integrator : String
  time : Int
deriving DecidableEq

/-- Row of `place_market_order_events`. -/
structure PlaceMarketEvent where
  txn_version : Nat
  event_idx : Nat
  market_id : Rat
  order_id : Rat
  user : String
  custodian_id : Rat
  direction : Int
  self_match_behavior : Int
  integrator : String
  size : Rat
  time : Int
deriving DecidableEq

/-- Row of `place_swap_order_events`. -/
structure PlaceSwapEvent where
  txn_version : Nat
  event_idx : Nat
  market_id : Rat
  order_id : Rat
  direction : Int
  limit_price : Rat
  signing_account : String
  min_base : Rat
  max_base : Rat
  min_quote : Rat
  max_quote : Rat
  integrator : String
  time : Int
deriving DecidableEq

/-- Row of `market_registration_events` (the column the aggregator reads). -/
structure MarketRegistration where
  market_id : Rat
  lot_size : Rat
deriving DecidableEq

/-- Row of `aggregator.user_history` (minus its key `(market_id, order_id)`,
which is the association-list key). -/
structure UserHistoryRow where
  created_at : Int
  last_updated_at : Option Int
  integrator : String
  total_filled : Rat
  remaining_size : Rat
  order_status : OrderStatus
  order_type : OrderType
deriving DecidableEq

/-- Row of `aggregator.user_history_limit` (minus its key). -/
structure UserHistoryLimitRow where
  user : String
  custodian_id : Rat
  side : Int
  self_match_behavior : Int
  restriction : Int
  price : Rat
  last_increase_stamp : Nat
deriving DecidableEq

/-- Row of `aggregator.user_history_market` (minus its key). -/
structure UserHistoryMarketRow where
  user : String
  custodian_id : Rat
  direction : Int
  self_match_behavior : Int
deriving DecidableEq

/-- Row of `aggregator.user_history_swap` (minus its key). -/
structure UserHistorySwapRow where
  direction : Int
  limit_price : Rat
  signing_account : String
  min_base : Rat
  max_base : Rat
  min_quote : Rat
  max_quote : Rat
deriving DecidableEq

/-- Key of the derived tables: `(market_id, order_id)`. -/
abbrev OrderKey := Rat × Rat

/-- Key of the idempotence ledger: `(txn_version, event_idx)`. -/
abbrev EventKey := Nat × Nat

/-- The tables owned by the aggregator (schema `aggregator`). -/
structure AggState where
  user_history : List (OrderKey × UserHistoryRow)
  user_history_limit : List (OrderKey × UserHistoryLimitRow)
  user_history_market : List (OrderKey × UserHistoryMarketRow)
  user_history_swap : List (OrderKey × UserHistorySwapRow)
  aggregated_events : List EventKey
deriving DecidableEq

/-- The input event tables (read-only for the aggregator). -/
structure InputTables where
  fill_events : List FillEvent
  change_events : List ChangeEvent
  cancel_events : List CancelEvent
  limit_events : List PlaceLimitEvent
  market_events : List PlaceMarketEvent
  swap_events : List PlaceSwapEvent
  market_registrations : List MarketRegistration
deriving DecidableEq

/-- `DataAggregationError` of the source: every failure is surfaced as
`ProcessingError`. -/
inductive AggError where
  | ProcessingError (msg : String)
deriving DecidableEq

/-- `SELECT ... WHERE market_id = _ AND order_id = _` on a keyed table:
first row with the given primary key, if any. -/
def lookup {β : Type} (k : OrderKey) (m : List (OrderKey × β)) : Option β :=
  (m.find? fun kv => decide (kv.1 = k)).map (fun kv => kv.2)

/-- `UPDATE ... SET ... WHERE market_id = _ AND order_id = _`: rewrite every
row matching the key (at most one, since the key is the primary key); zero
matching rows is not an error. -/
def updateWhere {β : Type} (k : OrderKey) (f : β → β) (m : List (OrderKey × β)) :
    List (OrderKey × β) :=
  m.map fun kv => if kv.1 = k then (kv.1, f kv.2) else kv

/-- `INSERT INTO` a table whose primary key is the association-list key:
appends, and a key collision is a database error that aborts the
transaction. -/
def insertUnique {β : Type} (k : OrderKey) (v : β) (m : List (OrderKey × β)) :
    Except AggError (List (OrderKey × β)) :=
  if (lookup k m).isSome then
    .error (.ProcessingError "duplicate key")
  else
    .ok (m ++ [(k, v)])

/-- `mark_as_aggregated`: `INSERT INTO aggregator.aggregated_events`; the
composite primary key makes a duplicate insert abort the transaction. -/
def mark_as_aggregated (key : EventKey) (ledger : List EventKey) :
    Except AggError (List EventKey) :=
  if key ∈ ledger then
    .error (.ProcessingError "duplicate key in aggregated_events")
  else
    .ok (ledger ++ [key])

/-- The priority stamp computed by the limit-placement path
(lines 153-167 of the source): `(txn_version << SHIFT_TXN_VERSION) | event_idx`
on arbitrary-precision integers. -/
def priorityStampPlacement (txn_version event_idx : Nat) : Nat :=
  (txn_version <<< SHIFT_TXN_VERSION) ||| event_idx

/-- The priority stamp computed by the size-increase path inside
`aggregate_change` (lines 451-463 of the source): the same shift-and-or. -/
def priorityStampChange (txn_version event_idx : Nat) : Nat :=
  (txn_version <<< SHIFT_TXN_VERSION) ||| event_idx

/-- The row mutation of the `UPDATE` in `aggregate_fill`.  All `SET`
expressions read the pre-update row, per SQL semantics: the `CASE` on
`remaining_size - $1` and the `ELSE order_status` both use pre-update
values. -/
def fillRowUpdate (size : Rat) (time : Int) (r : UserHistoryRow) : UserHistoryRow :=
  { r with
    remaining_size := r.remaining_size - size
    total_filled := r.total_filled + size
    order_status :=
      match r.order_type with
      | .Limit =>
          if r.remaining_size - size = 0 then .Closed else r.order_status
      | _ => .Closed
    last_updated_at := some time }

/-- `aggregate_fill`: one `UPDATE` of `aggregator.user_history` keyed by
`(order_id, market_id)`.  Zero matching rows is accepted silently. -/
def aggregate_fill (size : Rat) (order_id market_id : Rat) (time : Int)
    (s : AggState) : AggState :=
  { s with
    user_history :=
      updateWhere (market_id, order_id) (fillRowUpdate size time) s.user_history }

/-- `aggregate_fill_for_maker_and_taker`: apply `aggregate_fill` to the maker
order, then to the taker order. -/
def aggregate_fill_for_maker_and_taker (size : Rat)
    (maker_order_id taker_order_id market_id : Rat) (time : Int)
    (s : AggState) : AggState :=
  aggregate_fill size taker_order_id market_id time
    (aggregate_fill size maker_order_id market_id time s)

/-- `aggregate_change`: `fetch_one` of `(order_type, remaining_size)` — a
missing row is a database error aborting the transaction; if the order is a
limit order and `original_size < new_size`, stamp
`user_history_limit.last_increase_stamp`; then rewrite `remaining_size` and
`last_updated_at` of the `user_history` row. -/
def aggregate_change (new_size : Rat) (order_id market_id : Rat) (time : Int)
    (txn_version event_idx : Nat) (s : AggState) : Except AggError AggState := do
  let record ←
    match lookup (market_id, order_id) s.user_history with
    | none => Except.error (AggError.ProcessingError "RowNotFound")
    | some r => Except.ok r
  let s :=
    if record.order_type = OrderType.Limit ∧ record.remaining_size < new_size then
      { s with
        user_history_limit :=
          updateWhere (market_id, order_id)
            (fun r =>
              { r with last_increase_stamp := priorityStampChange txn_version event_idx })
            s.user_history_limit }
    else s
  .ok
    { s with
      user_history :=
        updateWhere (market_id, order_id)
          (fun r => { r with last_updated_at := some time, remaining_size := new_size })
          s.user_history }

/-- The strict comparison of the sequencer loop (lines 301-303 of the source):
`fill.txn_version < change.txn_version || (fill.txn_version ==
change.txn_version && fill.event_idx < change.event_idx)`. -/
def ltKey (a b : EventKey) : Prop :=
  a.1 < b.1 ∨ (a.1 = b.1 ∧ a.2 < b.2)

instance : DecidableRel ltKey := fun a b => by
  unfold ltKey; exact inferInstance

/-- Reflexive closure of `ltKey`: the `(txn_version, event_idx)` lexicographic
order used by `ORDER BY txn_version, event_idx`. -/
def leKey (a b : EventKey) : Prop :=
  a.1 < b.1 ∨ (a.1 = b.1 ∧ a.2 ≤ b.2)

instance : DecidableRel leKey := fun a b => by
  unfold leKey; exact inferInstance

/-- Key of a fill event in the ledger / ordering. -/
def fillKey (f : FillEvent) : EventKey := (f.txn_version, f.event_idx)

/-- Key of a change event in the ledger / ordering. -/
def changeKey (c : ChangeEvent) : EventKey := (c.txn_version, c.event_idx)

/-- Key of a merged element. -/
def eventKey : FillEvent ⊕ ChangeEvent → EventKey
  | .inl f => fillKey f
  | .inr c => changeKey c

/-- The merge-ordering sequencer (lines 294-313 of the source): step through
fill and change events in total order, taking the fill exactly when its
`(txn_version, event_idx)` is strictly below the change's, and the change
otherwise (including the impossible tie). -/
def mergeFC : List FillEvent → List ChangeEvent → List (FillEvent ⊕ ChangeEvent)
  | [], [] => []
  | f :: fs, [] => .inl f :: mergeFC fs []
  | [], c :: cs => .inr c :: mergeFC [] cs
  | f :: fs, c :: cs =>
      if ltKey (fillKey f) (changeKey c) then
        .inl f :: mergeFC fs (c :: cs)
      else
        .inr c :: mergeFC (f :: fs) cs
termination_by fs cs => fs.length + cs.length

/-- The body of the sequencer loop (lines 314-348): a fill is applied only if
`maker_address == emit_address` (dedupe rule); a change is applied through
`aggregate_change`; in every case the event is marked as aggregated. -/
def processMerged : List (FillEvent ⊕ ChangeEvent) → AggState →
    Except AggError AggState
  | [], s => .ok s
  | .inl fill :: rest, s => do
      let s :=
        if fill.maker_address = fill.emit_address then
          aggregate_fill_for_maker_and_taker fill.size fill.maker_order_id
            fill.taker_order_id fill.market_id fill.time s
        else s
      let led ← mark_as_aggregated (fillKey fill) s.aggregated_events
      processMerged rest { s with aggregated_events := led }
  | .inr change :: rest, s => do
      let s ← aggregate_change change.new_size change.order_id change.market_id
        change.time change.txn_version change.event_idx s
      let led ← mark_as_aggregated (changeKey change) s.aggregated_events
      processMerged rest { s with aggregated_events := led }

/-- The limit-placement loop (lines 153-207): insert the
`user_history_limit` extension row (with `last_increase_stamp` the priority
stamp), insert the base `user_history` row, mark as aggregated. -/
def processLimitPlacements : List PlaceLimitEvent → AggState →
    Except AggError AggState
  | [], s => .ok s
  | x :: rest, s => do
      let uhl ← insertUnique (x.market_id, x.order_id)
        { user := x.user
          custodian_id := x.custodian_id
          side := x.side
          self_match_behavior := x.self_match_behavior
          restriction := x.restriction
          price := x.price
          last_increase_stamp := priorityStampPlacement x.txn_version x.event_idx }
        s.user_history_limit
      let uh ← insertUnique (x.market_id, x.order_id)
        { created_at := x.time
          last_updated_at := none
          integrator := x.integrator
          total_filled := 0
          remaining_size := x.initial_size
          order_status := .Open
          order_type := .Limit }
        s.user_history
      let led ← mark_as_aggregated (x.txn_version, x.event_idx) s.aggregated_events
      processLimitPlacements rest
        { s with user_history_limit := uhl, user_history := uh, aggregated_events := led }

/-- The market-placement loop (lines 208-245). -/
def processMarketPlacements : List PlaceMarketEvent → AggState →
    Except AggError AggState
  | [], s => .ok s
  | x :: rest, s => do
      let uhm ← insertUnique (x.market_id, x.order_id)
        { user := x.user
          custodian_id := x.custodian_id
          direction := x.direction
          self_match_behavior := x.self_match_behavior }
        s.user_history_market
      let uh ← insertUnique (x.market_id, x.order_id)
        { created_at := x.time
          last_updated_at := none
          integrator := x.integrator
          total_filled := 0
          remaining_size := x.size
          order_status := .Open
          order_type := .Market }
        s.user_history
      let led ← mark_as_aggregated (x.txn_version, x.event_idx) s.aggregated_events
      processMarketPlacements rest
        { s with user_history_market := uhm, user_history := uh, aggregated_events := led }

/-- The swap-placement loop (lines 246-293): the swap extension row is
inserted, the market registration is fetched (`fetch_one`: a missing
registration aborts the transaction), and the base row's `remaining_size` is
`max_base / lot_size`. -/
def processSwapPlacements (regs : List MarketRegistration) :
    List PlaceSwapEvent → AggState → Except AggError AggState
  | [], s => .ok s
  | x :: rest, s => do
      let uhs ← insertUnique (x.market_id, x.order_id)
        { direction := x.direction
          limit_price := x.limit_price
          signing_account := x.signing_account
          min_base := x.min_base
          max_base := x.max_base
          min_quote := x.min_quote
          max_quote := x.max_quote }
        s.user_history_swap
      let market ←
        match regs.find? (fun r => decide (r.market_id = x.market_id)) with
        | none => Except.error (AggError.ProcessingError "RowNotFound")
        | some m => Except.ok m
      let uh ← insertUnique (x.market_id, x.order_id)
        { created_at := x.time
          last_updated_at := none
          integrator := x.integrator
          total_filled := 0
          remaining_size := x.max_base / market.lot_size
          order_status := .Open
          order_type := .Swap }
        s.user_history
      let led ← mark_as_aggregated (x.txn_version, x.event_idx) s.aggregated_events
      processSwapPlacements regs rest
        { s with user_history_swap := uhs, user_history := uh, aggregated_events := led }

/-- The cancel loop (lines 350-365): set `order_status = 'cancelled'` and
`last_updated_at` on the matching row (zero matching rows accepted silently),
then mark as aggregated. -/
def processCancels : List CancelEvent → AggState → Except AggError AggState
  | [], s => .ok s
  | x :: rest, s => do
      let uh :=
        updateWhere (x.market_id, x.order_id)
          (fun r =>
            { r with order_status := OrderStatus.Cancelled, last_updated_at := some x.time })
          s.user_history
      let led ← mark_as_aggregated (x.txn_version, x.event_idx) s.aggregated_events
      processCancels rest { s with user_history := uh, aggregated_events := led }

/-- Whether an event key is still unaggregated: the `WHERE NOT EXISTS`
subquery of the six loader reads. -/
def unaggregated (ledger : List EventKey) (key : EventKey) : Bool :=
  decide (key ∉ ledger)

/-- `leKey` lifted to fill events, for `ORDER BY txn_version, event_idx`. -/
def fillLe (a b : FillEvent) : Prop := leKey (fillKey a) (fillKey b)

instance : DecidableRel fillLe := fun a b => by
  unfold fillLe; exact inferInstance

/-- `leKey` lifted to change events. -/
def changeLe (a b : ChangeEvent) : Prop := leKey (changeKey a) (changeKey b)

instance : DecidableRel changeLe := fun a b => by
  unfold changeLe; exact inferInstance

/-- Loader read of `fill_events` (lines 73-86): exclude ledgered keys,
`ORDER BY txn_version, event_idx`. -/
def loadFills (tbl : List FillEvent) (ledger : List EventKey) : List FillEvent :=
  List.insertionSort fillLe
    (tbl.filter fun e => unaggregated ledger (fillKey e))

/-- Loader read of `change_order_size_events` (lines 87-100): exclude
ledgered keys, `ORDER BY txn_version, event_idx`. -/
def loadChanges (tbl : List ChangeEvent) (ledger : List EventKey) : List ChangeEvent :=
  List.insertionSort changeLe
    (tbl.filter fun e => unaggregated ledger (changeKey e))

/-- Loader read of `cancel_order_events` (lines 101-113): exclude ledgered
keys; the query has **no** `ORDER BY`, so rows come back in storage order. -/
def loadCancels (tbl : List CancelEvent) (ledger : List EventKey) : List CancelEvent :=
  tbl.filter fun e => unaggregated ledger (e.txn_version, e.event_idx)

/-- Loader read of `place_limit_order_events` (lines 114-126): no `ORDER BY`. -/
def loadLimits (tbl : List PlaceLimitEvent) (ledger : List EventKey) :
    List PlaceLimitEvent :=
  tbl.filter fun e => unaggregated ledger (e.txn_version, e.event_idx)

/-- Loader read of `place_market_order_events` (lines 127-139): no `ORDER BY`. -/
def loadMarkets (tbl : List PlaceMarketEvent) (ledger : List EventKey) :
    List PlaceMarketEvent :=
  tbl.filter fun e => unaggregated ledger (e.txn_version, e.event_idx)

/-- Loader read of `place_swap_order_events` (lines 140-152): no `ORDER BY`. -/
def loadSwaps (tbl : List PlaceSwapEvent) (ledger : List EventKey) :
    List PlaceSwapEvent :=
  tbl.filter fun e => unaggregated ledger (e.txn_version, e.event_idx)

/-- `process_and_save_internal`: one tick.  All six reads happen against the
initial snapshot; then limit, market and swap placements, then the
fill/change merge, then cancels; commit at the end.  An `Except.error`
result models the aborted transaction: no state change is visible. -/
def process_and_save_internal (inp : InputTables) (s : AggState) :
    Except AggError AggState := do
  let fills := loadFills inp.fill_events s.aggregated_events
  let changes := loadChanges inp.change_events s.aggregated_events
  let cancels := loadCancels inp.cancel_events s.aggregated_events
  let limits := loadLimits inp.limit_events s.aggregated_events
  let markets := loadMarkets inp.market_events s.aggregated_events
  let swaps := loadSwaps inp.swap_events s.aggregated_events
  let s ← processLimitPlacements limits s
  let s ← processMarketPlacements markets s
  let s ← processSwapPlacements inp.market_registrations swaps s
  let s ← processMerged (mergeFC fills changes) s
  let s ← processCancels cancels s
  .ok s

/-- `ready` (lines 48-51 of the source): true iff there is no recorded
last-indexed timestamp, or it is more than 5 seconds (the poll interval)
before `now`.  Times in seconds. -/
def ready (last_indexed_timestamp : Option Int) (now : Int) : Bool :=
  match last_indexed_timestamp with
  | none => true
  | some t => decide (t + 5 < now)

/-- Modelled from the spec: the tick driver (the `Data` trait scheduler,
which is not under `src/`) records the completion timestamp of a successful
tick in the instance's `last_indexed_timestamp`, and leaves it unchanged
after a failed tick. -/
def recordTickOutcome (success : Bool) (now : Int)
    (last_indexed_timestamp : Option Int) : Option Int :=
  if success then some now else last_indexed_timestamp

/-! ### Helper lemmas: lexicographic event keys -/

theorem ltKey_imp_leKey {a b : EventKey} (h : ltKey a b) : leKey a b := by
  unfold ltKey at h; unfold leKey; omega

theorem leKey_trans {a b c : EventKey} (h₁ : leKey a b) (h₂ : leKey b c) :
    leKey a c := by
  unfold leKey at h₁ h₂ ⊢; omega

theorem not_ltKey_imp {a b : EventKey} (h : ¬ ltKey a b) : leKey b a := by
  unfold ltKey at h; unfold leKey; omega

theorem leKey_ne_imp_ltKey {a b : EventKey} (h : leKey a b) (hne : a ≠ b) :
    ltKey a b := by
  have h2 : ¬ (a.1 = b.1 ∧ a.2 = b.2) := by
    intro hx
    exact hne (Prod.ext hx.1 hx.2)
  unfold leKey at h; unfold ltKey; omega

theorem ltKey_asymm_le {a b : EventKey} (h₁ : ltKey a b) (h₂ : leKey b a) :
    False := by
  unfold ltKey at h₁; unfold leKey at h₂; omega

instance : IsTotal FillEvent fillLe :=
  ⟨by intro a b; unfold fillLe leKey; omega⟩

instance : IsTrans FillEvent fillLe :=
  ⟨by intro a b c; unfold fillLe leKey; omega⟩

instance : IsTotal ChangeEvent changeLe :=
  ⟨by intro a b; unfold changeLe leKey; omega⟩

instance : IsTrans ChangeEvent changeLe :=
  ⟨by intro a b c; unfold changeLe leKey; omega⟩

/-! ### Helper lemmas: association-list primitives -/

theorem updateWhere_cons {β : Type} (k : OrderKey) (f : β → β)
    (kv : OrderKey × β) (t : List (OrderKey × β)) :
    updateWhere k f (kv :: t) =
      (if kv.1 = k then (kv.1, f kv.2) else kv) :: updateWhere k f t := by
  unfold updateWhere
  simp only [List.map]

theorem lookup_cons_pos {β : Type} (k : OrderKey) (kv : OrderKey × β)
    (t : List (OrderKey × β)) (h : kv.1 = k) :
    lookup k (kv :: t) = some kv.2 := by
  unfold lookup
  rw [List.find?_cons_of_pos _ (by simpa using h)]
  rfl

theorem lookup_cons_neg {β : Type} (k : OrderKey) (kv : OrderKey × β)
    (t : List (OrderKey × β)) (h : kv.1 ≠ k) :
    lookup k (kv :: t) = lookup k t := by
  unfold lookup
  rw [List.find?_cons_of_neg _ (by simpa using h)]

theorem lookup_updateWhere_self {β : Type} (k : OrderKey) (f : β → β)
    (m : List (OrderKey × β)) :
    lookup k (updateWhere k f m) = (lookup k m).map f := by
  induction m with
  | nil => rfl
  | cons kv t ih =>
      rw [updateWhere_cons]
      by_cases hk : kv.1 = k
      · rw [if_pos hk, lookup_cons_pos k (kv.1, f kv.2) (updateWhere k f t) hk,
          lookup_cons_pos k kv t hk]
        rfl
      · rw [if_neg hk, lookup_cons_neg k kv (updateWhere k f t) hk,
          lookup_cons_neg k kv t hk]
        exact ih

theorem lookup_updateWhere_ne {β : Type} {k k' : OrderKey} (f : β → β)
    (m : List (OrderKey × β)) (h : k' ≠ k) :
    lookup k' (updateWhere k f m) = lookup k' m := by
  induction m with
  | nil => rfl
  | cons kv t ih =>
      rw [updateWhere_cons]
      by_cases hk : kv.1 = k
      · have hk' : kv.1 ≠ k' := fun hx => h (hx ▸ hk)
        rw [if_pos hk, lookup_cons_neg k' (kv.1, f kv.2) (updateWhere k f t) hk',
          lookup_cons_neg k' kv t hk']
        exact ih
      · by_cases hk2 : kv.1 = k'
        · rw [if_neg hk, lookup_cons_pos k' kv (updateWhere k f t) hk2,
            lookup_cons_pos k' kv t hk2]
        · rw [if_neg hk, lookup_cons_neg k' kv (updateWhere k f t) hk2,
            lookup_cons_neg k' kv t hk2]
          exact ih

/-! ### Helper lemmas: loader reads -/

theorem unaggregated_true_iff (ledger : List EventKey) (key : EventKey) :
    unaggregated ledger key = true ↔ key ∉ ledger := by
  simp [unaggregated]

theorem mem_loadFills (tbl : List FillEvent) (ledger : List EventKey)
    (e : FillEvent) :
    e ∈ loadFills tbl ledger ↔ e ∈ tbl ∧ fillKey e ∉ ledger := by
  simp [loadFills, List.mem_insertionSort, List.mem_filter, unaggregated]

theorem mem_loadChanges (tbl : List ChangeEvent) (ledger : List EventKey)
    (e : ChangeEvent) :
    e ∈ loadChanges tbl ledger ↔ e ∈ tbl ∧ changeKey e ∉ ledger := by
  simp [loadChanges, List.mem_insertionSort, List.mem_filter, unaggregated]

theorem mem_loadCancels (tbl : List CancelEvent) (ledger : List EventKey)
    (e : CancelEvent) :
    e ∈ loadCancels tbl ledger ↔ e ∈ tbl ∧ (e.txn_version, e.event_idx) ∉ ledger := by
  simp [loadCancels, List.mem_filter, unaggregated]

theorem mem_loadLimits (tbl : List PlaceLimitEvent) (ledger : List EventKey)
    (e : PlaceLimitEvent) :
    e ∈ loadLimits tbl ledger ↔ e ∈ tbl ∧ (e.txn_version, e.event_idx) ∉ ledger := by
  simp [loadLimits, List.mem_filter, unaggregated]

theorem mem_loadMarkets (tbl : List PlaceMarketEvent) (ledger : List EventKey)
    (e : PlaceMarketEvent) :
    e ∈ loadMarkets tbl ledger ↔ e ∈ tbl ∧ (e.txn_version, e.event_idx) ∉ ledger := by
  simp [loadMarkets, List.mem_filter, unaggregated]

theorem mem_loadSwaps (tbl : List PlaceSwapEvent) (ledger : List EventKey)
    (e : PlaceSwapEvent) :
    e ∈ loadSwaps tbl ledger ↔ e ∈ tbl ∧ (e.txn_version, e.event_idx) ∉ ledger := by
  simp [loadSwaps, List.mem_filter, unaggregated]

theorem sorted_loadFills (tbl : List FillEvent) (ledger : List EventKey) :
    List.Sorted fillLe (loadFills tbl ledger) :=
  List.sorted_insertionSort fillLe _

theorem sorted_loadChanges (tbl : List ChangeEvent) (ledger : List EventKey) :
    List.Sorted changeLe (loadChanges tbl ledger) :=
  List.sorted_insertionSort changeLe _

/-! ### Helper lemmas: the merge-ordering sequencer -/

/-- `leKey` on the keys of merged elements. -/
def mergedLe (a b : FillEvent ⊕ ChangeEvent) : Prop :=
  leKey (eventKey a) (eventKey b)

instance : DecidableRel mergedLe := fun a b => by
  unfold mergedLe; exact inferInstance

theorem mergeFC_perm (fs : List FillEvent) (cs : List ChangeEvent) :
    List.Perm (mergeFC fs cs) (fs.map Sum.inl ++ cs.map Sum.inr) := by
  induction fs, cs using mergeFC.induct with
  | case1 => simp [mergeFC]
  | case2 f fs ih =>
      simp only [mergeFC, List.map, List.append_nil] at ih ⊢
      exact ih.cons (Sum.inl f)
  | case3 c cs ih =>
      simp only [mergeFC, List.map, List.nil_append] at ih ⊢
      exact ih.cons (Sum.inr c)
  | case4 f fs c cs h ih =>
      simp only [mergeFC, if_pos h, List.map, List.cons_append]
      exact ih.cons (Sum.inl f)
  | case5 f fs c cs h ih =>
      simp only [mergeFC, if_neg h, List.map, List.cons_append]
      exact (ih.cons (Sum.inr c)).trans List.perm_middle.symm

theorem mem_mergeFC (fs : List FillEvent) (cs : List ChangeEvent)
    (y : FillEvent ⊕ ChangeEvent) :
    y ∈ mergeFC fs cs ↔ y ∈ fs.map Sum.inl ++ cs.map Sum.inr :=
  (mergeFC_perm fs cs).mem_iff

theorem mergeFC_sorted : ∀ (fs : List FillEvent) (cs : List ChangeEvent),
    List.Pairwise fillLe fs → List.Pairwise changeLe cs →
    List.Pairwise mergedLe (mergeFC fs cs) := by
  intro fs cs
  induction fs, cs using mergeFC.induct with
  | case1 =>
      intro _ _
      simp [mergeFC]
  | case2 f fs ih =>
      intro hf hc
      simp only [mergeFC]
      have hbound : ∀ y ∈ mergeFC fs [], mergedLe (Sum.inl f) y := by
        intro y hy
        rcases List.mem_append.mp ((mem_mergeFC fs [] y).mp hy) with hy2 | hy2
        · rcases List.mem_map.mp hy2 with ⟨f2, hf2, rfl⟩
          exact (List.pairwise_cons.mp hf).1 f2 hf2
        · simp at hy2
      exact List.Pairwise.cons hbound (ih (List.pairwise_cons.mp hf).2 hc)
  | case3 c cs ih =>
      intro hf hc
      simp only [mergeFC]
      have hbound : ∀ y ∈ mergeFC [] cs, mergedLe (Sum.inr c) y := by
        intro y hy
        rcases List.mem_append.mp ((mem_mergeFC [] cs y).mp hy) with hy2 | hy2
        · simp at hy2
        · rcases List.mem_map.mp hy2 with ⟨c2, hc2, rfl⟩
          exact (List.pairwise_cons.mp hc).1 c2 hc2
      exact List.Pairwise.cons hbound (ih hf (List.pairwise_cons.mp hc).2)
  | case4 f fs c cs h ih =>
      intro hf hc
      simp only [mergeFC, if_pos h]
      have hbound : ∀ y ∈ mergeFC fs (c :: cs), mergedLe (Sum.inl f) y := by
        intro y hy
        rcases List.mem_append.mp ((mem_mergeFC fs (c :: cs) y).mp hy) with hy2 | hy2
        · rcases List.mem_map.mp hy2 with ⟨f2, hf2, rfl⟩
          exact (List.pairwise_cons.mp hf).1 f2 hf2
        · rcases List.mem_map.mp hy2 with ⟨c2, hc2, rfl⟩
          rcases List.mem_cons.mp hc2 with rfl | hc3
          · exact ltKey_imp_leKey h
          · exact leKey_trans (ltKey_imp_leKey h) ((List.pairwise_cons.mp hc).1 c2 hc3)
      exact List.Pairwise.cons hbound (ih (List.pairwise_cons.mp hf).2 hc)
  | case5 f fs c cs h ih =>
      intro hf hc
      simp only [mergeFC, if_neg h]
      have hbound : ∀ y ∈ mergeFC (f :: fs) cs, mergedLe (Sum.inr c) y := by
        intro y hy
        rcases List.mem_append.mp ((mem_mergeFC (f :: fs) cs y).mp hy) with hy2 | hy2
        · rcases List.mem_map.mp hy2 with ⟨f2, hf2, rfl⟩
          rcases List.mem_cons.mp hf2 with rfl | hf3
          · exact not_ltKey_imp h
          · exact leKey_trans (not_ltKey_imp h) ((List.pairwise_cons.mp hf).1 f2 hf3)
        · rcases List.mem_map.mp hy2 with ⟨c2, hc2, rfl⟩
          exact (List.pairwise_cons.mp hc).1 c2 hc2
      exact List.Pairwise.cons hbound (ih hf (List.pairwise_cons.mp hc).2)

theorem updateWhere_not_found {β : Type} (k : OrderKey) (f : β → β)
    (m : List (OrderKey × β)) (h : lookup k m = none) :
    updateWhere k f m = m := by
  unfold lookup at h
  have hfind : List.find? (fun kv => decide (kv.1 = k)) m = none := by
    cases hf2 : List.find? (fun kv => decide (kv.1 = k)) m with
    | none => rfl
    | some kv => rw [hf2] at h; simp at h
  rw [List.find?_eq_none] at hfind
  unfold updateWhere
  have h2 : ∀ kv ∈ m, (if kv.1 = k then (kv.1, f kv.2) else kv) = kv := by
    intro kv hkv
    have := hfind kv hkv
    rw [if_neg (by simpa using this)]
  calc m.map (fun kv => if kv.1 = k then (kv.1, f kv.2) else kv)
      = m.map id := List.map_congr_left h2
    _ = m := List.map_id m

/-- Bit-level form of the priority stamp: shifting left by 64 and or-ing a
value below `2 ^ 64` is multiplication plus addition. -/
theorem shiftLeft_or_eq_mul_add (a b : Nat) (h : b < 2 ^ 64) :
    (a <<< 64) ||| b = a * 2 ^ 64 + b := by
  have h2 : a * 2 ^ 64 + b = 2 ^ 64 * a + b := by rw [Nat.mul_comm]
  rw [h2]
  apply Nat.eq_of_testBit_eq
  intro j
  rw [Nat.testBit_or, Nat.testBit_shiftLeft, Nat.testBit_mul_pow_two_add a h j]
  by_cases hj : j < 64
  · rw [if_pos hj]
    have hge : ¬ (j ≥ 64) := by omega
    simp [hge]
  · rw [if_neg hj]
    have hge : j ≥ 64 := by omega
    have hb : b.testBit j = false :=
      Nat.testBit_lt_two_pow
        (Nat.lt_of_lt_of_le h (Nat.pow_le_pow_right (by omega) (by omega)))
    simp [hge, hb]

/-- C9: in both the limit-placement path and the size-increase path, the
stored priority stamp `(txn_version << 64) | event_idx` equals
`txn_version * 2 ^ 64 + event_idx` whenever `event_idx < 2 ^ 64`
(`txn_version` unbounded), so the two paths compute identical stamps for
identical `(txn_version, event_idx)`. -/
theorem priority_stamp_encoding (txn_version event_idx : Nat)
    (h : event_idx < 2 ^ 64) :
    priorityStampPlacement txn_version event_idx =
      txn_version * 2 ^ 64 + event_idx ∧
    priorityStampChange txn_version event_idx =
      txn_version * 2 ^ 64 + event_idx ∧
    priorityStampPlacement txn_version event_idx =
      priorityStampChange txn_version event_idx := by
  refine ⟨?p1, ?p2, rfl⟩ <;>
    exact shiftLeft_or_eq_mul_add txn_version event_idx h

theorem priority_stamp_encoding_witness :
    5 < 2 ^ 64 ∧
    (priorityStampPlacement 7 5 = 7 * 2 ^ 64 + 5 ∧
     priorityStampChange 7 5 = 7 * 2 ^ 64 + 5 ∧
     priorityStampPlacement 7 5 = priorityStampChange 7 5) :=
  ⟨by norm_num, priority_stamp_encoding 7 5 (by norm_num)⟩

/-- C6: `ready` is true iff the recorded last-run timestamp is absent (before
the first tick) or more than the 5-second poll interval before `now`; and the
(spec-modelled) tick driver records the completion timestamp exactly on a
successful tick, leaving it unchanged on a failed one. -/
theorem ready_iff_no_recent_tick (last : Option Int) (now now2 : Int) :
    (ready last now = true ↔ ∀ t ∈ last, t + 5 < now) ∧
    ready none now = true ∧
    recordTickOutcome true now2 last = some now2 ∧
    recordTickOutcome false now2 last = last := by
  refine ⟨?iff, rfl, rfl, rfl⟩
  cases last with
  | none => simp [ready]
  | some t => simp [ready]

theorem ok_bind {α β : Type} (a : α) (f : α → Except AggError β) :
    (Except.ok a >>= f) = f a := rfl

theorem error_bind {α β : Type} (e : AggError) (f : α → Except AggError β) :
    ((Except.error e : Except AggError α) >>= f) = Except.error e := rfl

/-- C1: an applied fill mutates the maker-order row and the taker-order row
of `user_history` (two distinct rows of the same market) identically:
`remaining_size` decreases by the fill size, `total_filled` increases by it,
`last_updated_at` becomes the fill time, and `order_status` becomes closed
unconditionally for non-limit orders, while a limit order closes exactly when
its pre-update `remaining_size` minus the fill size is zero and keeps its
status otherwise. -/
theorem fill_mutates_maker_and_taker_identically
    (size maker_order_id taker_order_id market_id : Rat) (time : Int)
    (s : AggState) (rm rt : UserHistoryRow)
    (hne : maker_order_id ≠ taker_order_id)
    (hm : lookup (market_id, maker_order_id) s.user_history = some rm)
    (ht : lookup (market_id, taker_order_id) s.user_history = some rt) :
    ∃ rm2 rt2 : UserHistoryRow,
      lookup (market_id, maker_order_id)
        (aggregate_fill_for_maker_and_taker size maker_order_id taker_order_id
          market_id time s).user_history = some rm2 ∧
      lookup (market_id, taker_order_id)
        (aggregate_fill_for_maker_and_taker size maker_order_id taker_order_id
          market_id time s).user_history = some rt2 ∧
      rm2.remaining_size = rm.remaining_size - size ∧
      rm2.total_filled = rm.total_filled + size ∧
      rm2.last_updated_at = some time ∧
      rm2.order_status =
        (if rm.order_type ≠ OrderType.Limit then OrderStatus.Closed
         else if rm.remaining_size - size = 0 then OrderStatus.Closed
         else rm.order_status) ∧
      rt2.remaining_size = rt.remaining_size - size ∧
      rt2.total_filled = rt.total_filled + size ∧
      rt2.last_updated_at = some time ∧
      rt2.order_status =
        (if rt.order_type ≠ OrderType.Limit then OrderStatus.Closed
         else if rt.remaining_size - size = 0 then OrderStatus.Closed
         else rt.order_status) := by
  have hkeymt : ((market_id, maker_order_id) : OrderKey) ≠ (market_id, taker_order_id) := by
    intro hx
    exact hne (congrArg Prod.snd hx)
  have hkeytm : ((market_id, taker_order_id) : OrderKey) ≠ (market_id, maker_order_id) :=
    fun hx => hkeymt hx.symm
  refine ⟨fillRowUpdate size time rm, fillRowUpdate size time rt, ?_, ?_, rfl, rfl, rfl, ?_, rfl, rfl, rfl, ?_⟩
  · simp only [aggregate_fill_for_maker_and_taker, aggregate_fill]
    rw [lookup_updateWhere_ne _ _ hkeymt, lookup_updateWhere_self, hm]
    rfl
  · simp only [aggregate_fill_for_maker_and_taker, aggregate_fill]
    rw [lookup_updateWhere_self, lookup_updateWhere_ne _ _ hkeytm, ht]
    rfl
  · unfold fillRowUpdate
    cases rm.order_type <;> simp
  · unfold fillRowUpdate
    cases rt.order_type <;> simp

theorem aggregate_change_found_pos
    (new_size order_id market_id : Rat) (time : Int)
    (txn_version event_idx : Nat) (s : AggState) (r : UserHistoryRow)
    (hr : lookup (market_id, order_id) s.user_history = some r)
    (hcond : r.order_type = OrderType.Limit ∧ r.remaining_size < new_size) :
    aggregate_change new_size order_id market_id time txn_version event_idx s =
      Except.ok
        { s with
          user_history :=
            updateWhere (market_id, order_id)
              (fun q => { q with last_updated_at := some time, remaining_size := new_size })
              s.user_history
          user_history_limit :=
            updateWhere (market_id, order_id)
              (fun q =>
                { q with
                  last_increase_stamp := priorityStampChange txn_version event_idx })
              s.user_history_limit } := by
  unfold aggregate_change
  rw [hr]
  simp only [ok_bind]
  rw [if_pos hcond]

theorem aggregate_change_found_neg
    (new_size order_id market_id : Rat) (time : Int)
    (txn_version event_idx : Nat) (s : AggState) (r : UserHistoryRow)
    (hr : lookup (market_id, order_id) s.user_history = some r)
    (hcond : ¬ (r.order_type = OrderType.Limit ∧ r.remaining_size < new_size)) :
    aggregate_change new_size order_id market_id time txn_version event_idx s =
      Except.ok
        { s with
          user_history :=
            updateWhere (market_id, order_id)
              (fun q => { q with last_updated_at := some time, remaining_size := new_size })
              s.user_history } := by
  unfold aggregate_change
  rw [hr]
  simp only [ok_bind]
  rw [if_neg hcond]

/-- C4: applying a `ChangeSize` event to an existing order always rewrites
`remaining_size` to `new_size` and `last_updated_at` to the event time, leaves
`total_filled` unchanged, and rewrites `last_increase_stamp` of the
`user_history_limit` row to the priority stamp exactly when the order is a
limit order whose `new_size` strictly exceeds the current `remaining_size`
(otherwise the stamp is untouched). -/
theorem change_resizes_and_restamps
    (new_size order_id market_id : Rat) (time : Int)
    (txn_version event_idx : Nat) (s : AggState)
    (r : UserHistoryRow) (lr : UserHistoryLimitRow)
    (hr : lookup (market_id, order_id) s.user_history = some r)
    (hl : lookup (market_id, order_id) s.user_history_limit = some lr) :
    ∃ s2 r2 lr2,
      aggregate_change new_size order_id market_id time txn_version event_idx s =
        .ok s2 ∧
      lookup (market_id, order_id) s2.user_history = some r2 ∧
      lookup (market_id, order_id) s2.user_history_limit = some lr2 ∧
      r2.remaining_size = new_size ∧
      r2.last_updated_at = some time ∧
      r2.total_filled = r.total_filled ∧
      lr2.last_increase_stamp =
        (if r.order_type = OrderType.Limit ∧ r.remaining_size < new_size
         then priorityStampChange txn_version event_idx
         else lr.last_increase_stamp) := by
  by_cases hcond : r.order_type = OrderType.Limit ∧ r.remaining_size < new_size
  · refine ⟨_,
      { r with remaining_size := new_size, last_updated_at := some time },
      { lr with last_increase_stamp := priorityStampChange txn_version event_idx },
      aggregate_change_found_pos new_size order_id market_id time
        txn_version event_idx s r hr hcond, ?_, ?_, rfl, rfl, rfl, ?_⟩
    · dsimp only
      rw [lookup_updateWhere_self, hr]
      rfl
    · dsimp only
      rw [lookup_updateWhere_self, hl]
      rfl
    · rw [if_pos hcond]
  · refine ⟨_,
      { r with remaining_size := new_size, last_updated_at := some time },
      lr,
      aggregate_change_found_neg new_size order_id market_id time
        txn_version event_idx s r hr hcond, ?_, ?_, rfl, rfl, rfl, ?_⟩
    · dsimp only
      rw [lookup_updateWhere_self, hr]
      rfl
    · dsimp only
      exact hl
    · rw [if_neg hcond]

/-- C2: in the sequencer loop, a fill event mutates the derived state only
when `maker_address = emit_address`; a fill with `maker_address ≠
emit_address` leaves every derived table unchanged, yet in both cases
`(txn_version, event_idx)` is appended to `aggregated_events`. -/
theorem fill_dedupe_always_ledgered (fill : FillEvent)
    (rest : List (FillEvent ⊕ ChangeEvent)) (s : AggState)
    (hk : fillKey fill ∉ s.aggregated_events) :
    ∃ s2, processMerged (.inl fill :: rest) s = processMerged rest s2 ∧
      s2.aggregated_events = s.aggregated_events ++ [fillKey fill] ∧
      (fill.maker_address ≠ fill.emit_address →
        s2.user_history = s.user_history ∧
        s2.user_history_limit = s.user_history_limit ∧
        s2.user_history_market = s.user_history_market ∧
        s2.user_history_swap = s.user_history_swap) := by
  by_cases hme : fill.maker_address = fill.emit_address
  · refine ⟨{ aggregate_fill_for_maker_and_taker fill.size fill.maker_order_id
        fill.taker_order_id fill.market_id fill.time s with
        aggregated_events := s.aggregated_events ++ [fillKey fill] },
      ?_, rfl, fun hme2 => absurd hme hme2⟩
    simp only [processMerged, if_pos hme, aggregate_fill_for_maker_and_taker,
      aggregate_fill]
    unfold mark_as_aggregated
    rw [if_neg hk]
    simp only [ok_bind]
  · refine ⟨{ s with aggregated_events := s.aggregated_events ++ [fillKey fill] },
      ?_, rfl, fun _ => ⟨rfl, rfl, rfl, rfl⟩⟩
    simp only [processMerged, if_neg hme]
    unfold mark_as_aggregated
    rw [if_neg hk]
    simp only [ok_bind]

/-- C8: a cancel event rewrites the matching `user_history` row (keyed by
`(market_id, order_id)`) to status cancelled with `last_updated_at` the event
time; when no row matches, the update silently changes nothing and no error is
raised; in both cases the event key is appended to `aggregated_events`.
Cancels run strictly after the fill/change merge by construction of
`process_and_save_internal`. -/
theorem cancel_applies_or_silently_ignored (x : CancelEvent)
    (rest : List CancelEvent) (s : AggState)
    (hk : (x.txn_version, x.event_idx) ∉ s.aggregated_events) :
    ∃ s2, processCancels (x :: rest) s = processCancels rest s2 ∧
      s2.aggregated_events = s.aggregated_events ++ [(x.txn_version, x.event_idx)] ∧
      s2.user_history_limit = s.user_history_limit ∧
      s2.user_history_market = s.user_history_market ∧
      s2.user_history_swap = s.user_history_swap ∧
      (lookup (x.market_id, x.order_id) s.user_history = none →
        s2.user_history = s.user_history) ∧
      (∀ r, lookup (x.market_id, x.order_id) s.user_history = some r →
        lookup (x.market_id, x.order_id) s2.user_history =
          some { r with order_status := OrderStatus.Cancelled,
                        last_updated_at := some x.time }) ∧
      (∀ k2, k2 ≠ (x.market_id, x.order_id) →
        lookup k2 s2.user_history = lookup k2 s.user_history) := by
  refine ⟨{ s with
      user_history :=
        updateWhere (x.market_id, x.order_id)
          (fun r =>
            { r with order_status := OrderStatus.Cancelled,
                     last_updated_at := some x.time })
          s.user_history
      aggregated_events := s.aggregated_events ++ [(x.txn_version, x.event_idx)] },
    ?_, rfl, rfl, rfl, rfl, ?_, ?_, ?_⟩
  · simp only [processCancels]
    unfold mark_as_aggregated
    rw [if_neg hk]
    simp only [ok_bind]
  · intro h
    dsimp only
    exact updateWhere_not_found _ _ _ h
  · intro r h
    dsimp only
    rw [lookup_updateWhere_self, h]
    rfl
  · intro k2 hk2
    dsimp only
    exact lookup_updateWhere_ne _ _ hk2

/-- C5: a tick run against input tables that hold no events beyond those
already recorded in `aggregated_events` loads six empty batches and returns
the state unchanged — derived tables and ledger alike. -/
theorem tick_idempotent_when_no_new_events (inp : InputTables) (s : AggState)
    (h1 : ∀ e ∈ inp.fill_events, fillKey e ∈ s.aggregated_events)
    (h2 : ∀ e ∈ inp.change_events, changeKey e ∈ s.aggregated_events)
    (h3 : ∀ e ∈ inp.cancel_events, (e.txn_version, e.event_idx) ∈ s.aggregated_events)
    (h4 : ∀ e ∈ inp.limit_events, (e.txn_version, e.event_idx) ∈ s.aggregated_events)
    (h5 : ∀ e ∈ inp.market_events, (e.txn_version, e.event_idx) ∈ s.aggregated_events)
    (h6 : ∀ e ∈ inp.swap_events, (e.txn_version, e.event_idx) ∈ s.aggregated_events) :
    process_and_save_internal inp s = .ok s := by
  have hf : loadFills inp.fill_events s.aggregated_events = [] := by
    unfold loadFills
    rw [List.filter_eq_nil_iff.mpr ?_]
    · rfl
    · intro e he
      simp only [unaggregated, decide_eq_true_eq, Decidable.not_not]
      exact h1 e he
  have hc : loadChanges inp.change_events s.aggregated_events = [] := by
    unfold loadChanges
    rw [List.filter_eq_nil_iff.mpr ?_]
    · rfl
    · intro e he
      simp only [unaggregated, decide_eq_true_eq, Decidable.not_not]
      exact h2 e he
  have hx : loadCancels inp.cancel_events s.aggregated_events = [] := by
    unfold loadCancels
    rw [List.filter_eq_nil_iff.mpr ?_]
    intro e he
    simp only [unaggregated, decide_eq_true_eq, Decidable.not_not]
    exact h3 e he
  have hl : loadLimits inp.limit_events s.aggregated_events = [] := by
    unfold loadLimits
    rw [List.filter_eq_nil_iff.mpr ?_]
    intro e he
    simp only [unaggregated, decide_eq_true_eq, Decidable.not_not]
    exact h4 e he
  have hm : loadMarkets inp.market_events s.aggregated_events = [] := by
    unfold loadMarkets
    rw [List.filter_eq_nil_iff.mpr ?_]
    intro e he
    simp only [unaggregated, decide_eq_true_eq, Decidable.not_not]
    exact h5 e he
  have hw : loadSwaps inp.swap_events s.aggregated_events = [] := by
    unfold loadSwaps
    rw [List.filter_eq_nil_iff.mpr ?_]
    intro e he
    simp only [unaggregated, decide_eq_true_eq, Decidable.not_not]
    exact h6 e he
  unfold process_and_save_internal
  rw [hf, hc, hx, hl, hm, hw]
  simp only [processLimitPlacements, processMarketPlacements,
    processSwapPlacements, mergeFC, processMerged, processCancels, ok_bind]

/-- C7 (amended): each of the six loader reads returns exactly the rows of its
event table whose `(txn_version, event_idx)` is not in `aggregated_events`;
the fills and changes batches are additionally ordered by
`(txn_version, event_idx)` ascending, while the cancel and three placement
reads carry no `ORDER BY` and return rows in table order. -/
theorem loader_excludes_ledger_orders_fills_changes
    (ledger : List EventKey) (ft : List FillEvent) (ct : List ChangeEvent)
    (kt : List CancelEvent) (pt : List PlaceLimitEvent)
    (mt : List PlaceMarketEvent) (wt : List PlaceSwapEvent) :
    (∀ e, e ∈ loadFills ft ledger ↔ e ∈ ft ∧ fillKey e ∉ ledger) ∧
    (∀ e, e ∈ loadChanges ct ledger ↔ e ∈ ct ∧ changeKey e ∉ ledger) ∧
    (∀ e, e ∈ loadCancels kt ledger ↔
      e ∈ kt ∧ (e.txn_version, e.event_idx) ∉ ledger) ∧
    (∀ e, e ∈ loadLimits pt ledger ↔
      e ∈ pt ∧ (e.txn_version, e.event_idx) ∉ ledger) ∧
    (∀ e, e ∈ loadMarkets mt ledger ↔
      e ∈ mt ∧ (e.txn_version, e.event_idx) ∉ ledger) ∧
    (∀ e, e ∈ loadSwaps wt ledger ↔
      e ∈ wt ∧ (e.txn_version, e.event_idx) ∉ ledger) ∧
    List.Sorted fillLe (loadFills ft ledger) ∧
    List.Sorted changeLe (loadChanges ct ledger) :=
  ⟨mem_loadFills ft ledger, mem_loadChanges ct ledger, mem_loadCancels kt ledger,
    mem_loadLimits pt ledger, mem_loadMarkets mt ledger, mem_loadSwaps wt ledger,
    sorted_loadFills ft ledger, sorted_loadChanges ct ledger⟩

/-- C7 counterexample: the cancel-order read has no `ORDER BY`, so the cancel
batch is not ordered by `(txn_version, event_idx)` ascending: for a table
stored as `[key (2,0), key (1,0)]` and an empty ledger the batch keys come
back as `[(2,0), (1,0)]`, which is not ascending. -/
theorem cancel_batch_not_sorted :
    ¬ List.Pairwise leKey
        ((loadCancels
            [CancelEvent.mk 2 0 1 100 0, CancelEvent.mk 1 0 1 100 0] []).map
          (fun e => (e.txn_version, e.event_idx))) := by
  intro h
  have heval : (loadCancels
      [CancelEvent.mk 2 0 1 100 0, CancelEvent.mk 1 0 1 100 0] []).map
        (fun e => (e.txn_version, e.event_idx)) = [(2, 0), (1, 0)] := rfl
  rw [heval] at h
  have h2 := (List.pairwise_cons.mp h).1 (1, 0) (List.mem_singleton.mpr rfl)
  unfold leKey at h2
  omega

/-- C3: the sequencer loop consumes each element of the fills batch and the
changes batch exactly once (the merged stream is a permutation of the two
batches), and — given the two batches individually sorted and globally
collision-free keys — a fill `f` is processed before a change `c` iff
`(f.txn_version, f.event_idx)` is lexicographically below
`(c.txn_version, c.event_idx)`. -/
theorem sequencer_merges_in_total_order
    (fills : List FillEvent) (changes : List ChangeEvent)
    (hf : List.Pairwise fillLe fills) (hc : List.Pairwise changeLe changes)
    (hne : ∀ f ∈ fills, ∀ c ∈ changes, fillKey f ≠ changeKey c) :
    List.Perm (mergeFC fills changes)
      (fills.map Sum.inl ++ changes.map Sum.inr) ∧
    ∀ (f : FillEvent) (c : ChangeEvent)
      (i j : Fin (mergeFC fills changes).length),
      (mergeFC fills changes).get i = Sum.inl f →
      (mergeFC fills changes).get j = Sum.inr c →
      ((i : Nat) < (j : Nat) ↔ ltKey (fillKey f) (changeKey c)) := by
  refine ⟨mergeFC_perm fills changes, ?_⟩
  intro f c i j hif hjc
  have hs := mergeFC_sorted fills changes hf hc
  have hfm : f ∈ fills := by
    have hmem : Sum.inl f ∈ mergeFC fills changes := by
      rw [← hif]
      exact List.get_mem _ _ _
    rcases List.mem_append.mp ((mem_mergeFC fills changes _).mp hmem) with h1 | h1
    · rcases List.mem_map.mp h1 with ⟨f2, hf2, he⟩
      cases he
      exact hf2
    · rcases List.mem_map.mp h1 with ⟨c2, _, he⟩
      simp at he
  have hcm : c ∈ changes := by
    have hmem : Sum.inr c ∈ mergeFC fills changes := by
      rw [← hjc]
      exact List.get_mem _ _ _
    rcases List.mem_append.mp ((mem_mergeFC fills changes _).mp hmem) with h1 | h1
    · rcases List.mem_map.mp h1 with ⟨f2, _, he⟩
      simp at he
    · rcases List.mem_map.mp h1 with ⟨c2, hc2, he⟩
      cases he
      exact hc2
  have hkne : fillKey f ≠ changeKey c := hne f hfm c hcm
  have hpair := List.pairwise_iff_get.mp hs
  constructor
  · intro hij
    have hle := hpair i j hij
    rw [hif, hjc] at hle
    exact leKey_ne_imp_ltKey hle hkne
  · intro hlt
    rcases Nat.lt_trichotomy (i : Nat) (j : Nat) with h1 | h1 | h1
    · exact h1
    · exfalso
      have hij : i = j := Fin.ext h1
      rw [hij, hjc] at hif
      simp at hif
    · exfalso
      have hle := hpair j i h1
      rw [hif, hjc] at hle
      exact ltKey_asymm_le hlt hle

/-- C10: a `ChangeSize` event whose `(market_id, order_id)` has no
`user_history` row makes `aggregate_change` error (the `fetch_one` lookup
fails), and the error propagates through the sequencer loop so the whole tick
fails and the transaction is aborted: no event of the batch is applied or
ledgered (an `Except.error` result carries no state). -/
theorem change_missing_row_fails_tick (x : ChangeEvent) (s : AggState)
    (h : lookup (x.market_id, x.order_id) s.user_history = none) :
    aggregate_change x.new_size x.order_id x.market_id x.time
        x.txn_version x.event_idx s =
      .error (.ProcessingError "RowNotFound") ∧
    ∀ rest : List (FillEvent ⊕ ChangeEvent),
      processMerged (.inr x :: rest) s =
        .error (.ProcessingError "RowNotFound") := by
  constructor
  · unfold aggregate_change
    rw [h]
    rfl
  · intro rest
    show (aggregate_change x.new_size x.order_id x.market_id x.time
        x.txn_version x.event_idx s) >>= _ = _
    unfold aggregate_change
    rw [h]
    rfl

/-! ### Concrete sample data for the witnesses -/

/-- A resting limit order: 5 units remaining, nothing filled. -/
def uhRowLimitSample : UserHistoryRow :=
  ⟨0, none, "itg", 0, 5, OrderStatus.Open, OrderType.Limit⟩

/-- A market order: 2 units remaining, nothing filled. -/
def uhRowMarketSample : UserHistoryRow :=
  ⟨0, none, "itg", 0, 2, OrderStatus.Open, OrderType.Market⟩

/-- Limit extension row of order `(1, 100)`. -/
def uhLimitExtSample : UserHistoryLimitRow := ⟨"usr", 0, 0, 0, 0, 10, 0⟩

/-- State with orders `(1, 100)` (limit) and `(1, 200)` (market) and an empty
ledger. -/
def twoOrderState : AggState :=
  ⟨[((1, 100), uhRowLimitSample), ((1, 200), uhRowMarketSample)],
    [((1, 100), uhLimitExtSample)], [], [], []⟩

theorem fill_mutates_maker_and_taker_identically_witness :
    ((100 : Rat) ≠ 200) ∧
    lookup (1, 100) twoOrderState.user_history = some uhRowLimitSample ∧
    lookup (1, 200) twoOrderState.user_history = some uhRowMarketSample ∧
    (∃ rm2 rt2 : UserHistoryRow,
      lookup (1, 100)
        (aggregate_fill_for_maker_and_taker 2 100 200 1 7
          twoOrderState).user_history = some rm2 ∧
      lookup (1, 200)
        (aggregate_fill_for_maker_and_taker 2 100 200 1 7
          twoOrderState).user_history = some rt2 ∧
      rm2.remaining_size = uhRowLimitSample.remaining_size - 2 ∧
      rm2.total_filled = uhRowLimitSample.total_filled + 2 ∧
      rm2.last_updated_at = some 7 ∧
      rm2.order_status =
        (if uhRowLimitSample.order_type ≠ OrderType.Limit then OrderStatus.Closed
         else if uhRowLimitSample.remaining_size - 2 = 0 then OrderStatus.Closed
         else uhRowLimitSample.order_status) ∧
      rt2.remaining_size = uhRowMarketSample.remaining_size - 2 ∧
      rt2.total_filled = uhRowMarketSample.total_filled + 2 ∧
      rt2.last_updated_at = some 7 ∧
      rt2.order_status =
        (if uhRowMarketSample.order_type ≠ OrderType.Limit then OrderStatus.Closed
         else if uhRowMarketSample.remaining_size - 2 = 0 then OrderStatus.Closed
         else uhRowMarketSample.order_status)) :=
  ⟨by decide, by decide, by decide,
    fill_mutates_maker_and_taker_identically 2 100 200 1 7 twoOrderState
      uhRowLimitSample uhRowMarketSample (by decide) (by decide) (by decide)⟩

/-- A fill emitted to the taker handle: `maker_address ≠ emit_address`. -/
def dedupeFillSample : FillEvent := ⟨2, 1, 1, 100, 200, 2, "A", "B", 3⟩

theorem fill_dedupe_always_ledgered_witness :
    fillKey dedupeFillSample ∉ twoOrderState.aggregated_events ∧
    (∃ s2, processMerged (.inl dedupeFillSample :: []) twoOrderState =
        processMerged [] s2 ∧
      s2.aggregated_events =
        twoOrderState.aggregated_events ++ [fillKey dedupeFillSample] ∧
      (dedupeFillSample.maker_address ≠ dedupeFillSample.emit_address →
        s2.user_history = twoOrderState.user_history ∧
        s2.user_history_limit = twoOrderState.user_history_limit ∧
        s2.user_history_market = twoOrderState.user_history_market ∧
        s2.user_history_swap = twoOrderState.user_history_swap)) :=
  ⟨by decide,
    fill_dedupe_always_ledgered dedupeFillSample [] twoOrderState (by decide)⟩

/-- Fills of the merge-ordering scenario: keys `(1,2)` and `(3,0)`. -/
def mergeFillsSample : List FillEvent :=
  [⟨1, 2, 1, 100, 200, 1, "A", "A", 0⟩, ⟨3, 0, 1, 100, 200, 1, "A", "A", 0⟩]

/-- Changes of the merge-ordering scenario: keys `(1,5)` and `(2,0)`. -/
def mergeChangesSample : List ChangeEvent :=
  [⟨1, 5, 1, 100, 4, 0⟩, ⟨2, 0, 1, 100, 4, 0⟩]

theorem sequencer_merges_in_total_order_witness :
    List.Pairwise fillLe mergeFillsSample ∧
    List.Pairwise changeLe mergeChangesSample ∧
    (∀ f ∈ mergeFillsSample, ∀ c ∈ mergeChangesSample,
      fillKey f ≠ changeKey c) ∧
    (List.Perm (mergeFC mergeFillsSample mergeChangesSample)
      (mergeFillsSample.map Sum.inl ++ mergeChangesSample.map Sum.inr) ∧
    ∀ (f : FillEvent) (c : ChangeEvent)
      (i j : Fin (mergeFC mergeFillsSample mergeChangesSample).length),
      (mergeFC mergeFillsSample mergeChangesSample).get i = Sum.inl f →
      (mergeFC mergeFillsSample mergeChangesSample).get j = Sum.inr c →
      ((i : Nat) < (j : Nat) ↔ ltKey (fillKey f) (changeKey c))) :=
  ⟨by decide, by decide, by decide,
    sequencer_merges_in_total_order mergeFillsSample mergeChangesSample
      (by decide) (by decide) (by decide)⟩

theorem change_resizes_and_restamps_witness :
    lookup (1, 100) twoOrderState.user_history = some uhRowLimitSample ∧
    lookup (1, 100) twoOrderState.user_history_limit = some uhLimitExtSample ∧
    (∃ s2 r2 lr2,
      aggregate_change 9 100 1 7 5 3 twoOrderState = .ok s2 ∧
      lookup (1, 100) s2.user_history = some r2 ∧
      lookup (1, 100) s2.user_history_limit = some lr2 ∧
      r2.remaining_size = 9 ∧
      r2.last_updated_at = some 7 ∧
      r2.total_filled = uhRowLimitSample.total_filled ∧
      lr2.last_increase_stamp =
        (if uhRowLimitSample.order_type = OrderType.Limit ∧
            uhRowLimitSample.remaining_size < 9
         then priorityStampChange 5 3
         else uhLimitExtSample.last_increase_stamp)) :=
  ⟨by decide, by decide,
    change_resizes_and_restamps 9 100 1 7 5 3 twoOrderState
      uhRowLimitSample uhLimitExtSample (by decide) (by decide)⟩

/-- Input tables whose single fill event is already in the ledger below. -/
def idemInput : InputTables :=
  ⟨[⟨1, 0, 1, 100, 200, 2, "A", "A", 3⟩], [], [], [], [], [], []⟩

/-- A state whose ledger already records key `(1, 0)`. -/
def idemState : AggState := ⟨[], [], [], [], [(1, 0)]⟩

theorem tick_idempotent_when_no_new_events_witness :
    (∀ e ∈ idemInput.fill_events, fillKey e ∈ idemState.aggregated_events) ∧
    (∀ e ∈ idemInput.change_events, changeKey e ∈ idemState.aggregated_events) ∧
    (∀ e ∈ idemInput.cancel_events,
      (e.txn_version, e.event_idx) ∈ idemState.aggregated_events) ∧
    (∀ e ∈ idemInput.limit_events,
      (e.txn_version, e.event_idx) ∈ idemState.aggregated_events) ∧
    (∀ e ∈ idemInput.market_events,
      (e.txn_version, e.event_idx) ∈ idemState.aggregated_events) ∧
    (∀ e ∈ idemInput.swap_events,
      (e.txn_version, e.event_idx) ∈ idemState.aggregated_events) ∧
    process_and_save_internal idemInput idemState = .ok idemState :=
  ⟨by decide, by decide, by decide, by decide, by decide, by decide,
    tick_idempotent_when_no_new_events idemInput idemState
      (by decide) (by decide) (by decide) (by decide) (by decide) (by decide)⟩

/-- A cancel of order `(1, 100)` at time 9, key `(2, 0)`. -/
def cancelSample : CancelEvent := ⟨2, 0, 1, 100, 9⟩

theorem cancel_applies_or_silently_ignored_witness :
    (cancelSample.txn_version, cancelSample.event_idx) ∉
      twoOrderState.aggregated_events ∧
    (∃ s2, processCancels (cancelSample :: []) twoOrderState =
        processCancels [] s2 ∧
      s2.aggregated_events = twoOrderState.aggregated_events ++
        [(cancelSample.txn_version, cancelSample.event_idx)] ∧
      s2.user_history_limit = twoOrderState.user_history_limit ∧
      s2.user_history_market = twoOrderState.user_history_market ∧
      s2.user_history_swap = twoOrderState.user_history_swap ∧
      (lookup (cancelSample.market_id, cancelSample.order_id)
          twoOrderState.user_history = none →
        s2.user_history = twoOrderState.user_history) ∧
      (∀ r, lookup (cancelSample.market_id, cancelSample.order_id)
          twoOrderState.user_history = some r →
        lookup (cancelSample.market_id, cancelSample.order_id)
            s2.user_history =
          some { r with order_status := OrderStatus.Cancelled,
                        last_updated_at := some cancelSample.time }) ∧
      (∀ k2, k2 ≠ (cancelSample.market_id, cancelSample.order_id) →
        lookup k2 s2.user_history = lookup k2 twoOrderState.user_history)) :=
  ⟨by decide,
    cancel_applies_or_silently_ignored cancelSample [] twoOrderState (by decide)⟩

theorem change_missing_row_fails_tick_witness :
    lookup ((1 : Rat), (100 : Rat))
        (AggState.mk [] [] [] [] []).user_history = none ∧
    (aggregate_change 3 100 1 9 4 0 (AggState.mk [] [] [] [] []) =
        .error (.ProcessingError "RowNotFound") ∧
      ∀ rest : List (FillEvent ⊕ ChangeEvent),
        processMerged (.inr (ChangeEvent.mk 4 0 1 100 3 9) :: rest)
            (AggState.mk [] [] [] [] []) =
          .error (.ProcessingError "RowNotFound")) :=
  ⟨rfl, change_missing_row_fails_tick (ChangeEvent.mk 4 0 1 100 3 9)
    (AggState.mk [] [] [] [] []) rfl⟩

end Econia
